import Mathlib

/-!
Verification of the log-linear growth model (`log_linear_growth_model.py`).

The repository source under `src/` is the model facade
`LogLinearGrowthModel` together with the memoized solve
`compute_value_function_cached`.  The Bellman operator (`optgrowth.py`)
and the fixed-point solver (`quantecon.compute_fixed_point`) are imported
by the source but are not under `src/`; they are modelled from the spec,
as marked in the doc comments below.

Numbers are embedded as real numbers (`ℝ`); numpy arrays as `List ℝ`.
The per-grid-point bounded scalar maximization is modelled as the exact
supremum of the objective over the feasible choice range, and the spec's
float-level "no NaN / no infinity" conditions become the statement that
the supremum is a genuine least upper bound of a nonempty, bounded-above
set of finite reals (in `ℝ` there is no NaN or infinity; junk values of
`sSup` would be the embedding's analogue, and `IsLUB` rules them out).
-/

noncomputable section

open Real Set

/-! ## Basic list numerics -/

/-- Fold of `max` over a list with seed `0`; the building block for the
sup-norm and for bounds on value arrays. -/
def listMax (l : List ℝ) : ℝ := l.foldr max 0

/-- Arithmetic mean of a list, `sum / length` (numpy `mean`; the empty
list gives the junk value `0`). -/
def listMean (l : List ℝ) : ℝ := l.sum / l.length

/-- Sup-norm distance between two arrays of values (numpy
`max(abs(v - w))` on arrays of equal length, as used by the fixed-point
solver's convergence test). -/
def supDist (v w : List ℝ) : ℝ := listMax ((v.zip w).map (fun p => |p.1 - p.2|))

/-- Bound on the absolute values of a list's entries. -/
def listBound (l : List ℝ) : ℝ := listMax (l.map (fun x => |x|))

theorem listMax_nonneg (l : List ℝ) : 0 ≤ listMax l := by
  induction l with
  | nil => simp [listMax]
  | cons a t ih => exact le_trans ih (le_max_right a (listMax t))

theorem le_listMax_of_mem {l : List ℝ} {x : ℝ} (hx : x ∈ l) : x ≤ listMax l := by
  induction l with
  | nil => simp at hx
  | cons a t ih =>
    rcases List.mem_cons.mp hx with h | h
    · exact h ▸ le_max_left a (listMax t)
    · exact le_trans (ih h) (le_max_right a (listMax t))

theorem listMax_le {l : List ℝ} {B : ℝ} (hB : 0 ≤ B) (h : ∀ x ∈ l, x ≤ B) :
    listMax l ≤ B := by
  induction l with
  | nil => simpa [listMax] using hB
  | cons a t ih =>
    have ht : listMax t ≤ B := ih (fun x hx => h x (List.mem_cons_of_mem a hx))
    exact max_le (h a (List.mem_cons_self a t)) ht

theorem supDist_nonneg (v w : List ℝ) : 0 ≤ supDist v w := listMax_nonneg _

theorem abs_sub_le_supDist {v w : List ℝ} {a b : ℝ} (h : (a, b) ∈ v.zip w) :
    |a - b| ≤ supDist v w :=
  le_listMax_of_mem (List.mem_map.mpr ⟨(a, b), h, rfl⟩)

theorem listBound_nonneg (l : List ℝ) : 0 ≤ listBound l := listMax_nonneg _

theorem abs_le_listBound {l : List ℝ} {x : ℝ} (hx : x ∈ l) : |x| ≤ listBound l :=
  le_listMax_of_mem (List.mem_map.mpr ⟨x, hx, rfl⟩)

theorem listMean_abs_le {l : List ℝ} {B : ℝ} (hB : 0 ≤ B) (h : ∀ x ∈ l, |x| ≤ B) :
    |listMean l| ≤ B := by
  rcases l.eq_nil_or_concat with rfl | _
  · simpa [listMean] using hB
  · have hsum : |l.sum| ≤ l.length * B := by
      clear * - h
      induction l with
      | nil => simp
      | cons a t ih =>
        have ha : |a| ≤ B := h a (List.mem_cons_self a t)
        have ht : |t.sum| ≤ t.length * B :=
          ih (fun x hx => h x (List.mem_cons_of_mem a hx))
        calc |(a :: t).sum| = |a + t.sum| := by simp
          _ ≤ |a| + |t.sum| := abs_add _ _
          _ ≤ B + t.length * B := add_le_add ha ht
          _ = (a :: t).length * B := by simp; ring
    have hlen : (0 : ℝ) < l.length := by
      rcases l with _ | ⟨a, t⟩
      · simp_all
      · have : (0 : ℕ) < (a :: t).length := by simp
        exact_mod_cast this
    have : |listMean l| = |l.sum| / l.length := by
      rw [listMean, abs_div, abs_of_pos hlen]
    rw [this]
    rw [div_le_iff₀ hlen]
    calc |l.sum| ≤ l.length * B := hsum
      _ = B * l.length := by ring

/-! ## Grid generation (`np.linspace`, as used at model construction) -/

/-- `np.linspace a b n`: `n` evenly spaced points from `a` to `b`
inclusive, point `i` being `a + (b - a) * i / (n - 1)`. -/
def linspace (a b : ℝ) (n : ℕ) : List ℝ :=
  (List.range n).map (fun i : ℕ => a + (b - a) * (i : ℝ) / ((n : ℝ) - 1))

theorem linspace_length (a b : ℝ) (n : ℕ) : (linspace a b n).length = n := by
  simp [linspace]

theorem linspace_getElem? (a b : ℝ) (n : ℕ) (i : ℕ) (hi : i < n) :
    (linspace a b n)[i]? = some (a + (b - a) * i / ((n : ℝ) - 1)) := by
  simp [linspace, List.getElem?_map, List.getElem?_range hi]

theorem linspace_head (a b : ℝ) (n : ℕ) (hn : 0 < n) :
    (linspace a b n)[0]? = some a := by
  rw [linspace_getElem? a b n 0 hn]
  norm_num

theorem linspace_last (a b : ℝ) (n : ℕ) (hn : 2 ≤ n) :
    (linspace a b n)[n - 1]? = some b := by
  have h1 : n - 1 < n := by omega
  rw [linspace_getElem? a b n (n - 1) h1]
  have hcast : ((n - 1 : ℕ) : ℝ) = (n : ℝ) - 1 := by
    have : (1 : ℕ) ≤ n := by omega
    push_cast [this]
    ring
  have hne : ((n : ℝ) - 1) ≠ 0 := by
    have : (2 : ℝ) ≤ (n : ℝ) := by exact_mod_cast hn
    linarith
  rw [hcast, mul_div_assoc, div_self hne, mul_one]
  norm_num

theorem linspace_strict_mono (a b : ℝ) (n : ℕ) (hn : 2 ≤ n) (hab : a < b) :
    List.Chain' (· < ·) (linspace a b n) := by
  rw [linspace, List.chain'_map]
  obtain ⟨m, rfl⟩ : ∃ m, n = m + 1 := ⟨n - 1, by omega⟩
  rw [List.chain'_range_succ]
  intro i _
  have hden : (0 : ℝ) < (m + 1 : ℕ) - 1 := by
    have : (2 : ℝ) ≤ ((m + 1 : ℕ) : ℝ) := by exact_mod_cast hn
    linarith
  have hnum : (b - a) * (i : ℝ) < (b - a) * ((i + 1 : ℕ) : ℝ) := by
    have hba : (0 : ℝ) < b - a := by linarith
    have : (i : ℝ) < ((i + 1 : ℕ) : ℝ) := by push_cast; linarith
    exact mul_lt_mul_of_pos_left this hba
  have h2 := (div_lt_div_iff_of_pos_right hden).mpr hnum
  linarith

theorem mem_linspace_le {a b : ℝ} {n : ℕ} (hn : 2 ≤ n) (hab : a ≤ b) {x : ℝ}
    (hx : x ∈ linspace a b n) : a ≤ x := by
  rw [linspace] at hx
  rcases List.mem_map.mp hx with ⟨i, _, rfl⟩
  have hden : (0 : ℝ) ≤ (n : ℝ) - 1 := by
    have : (2 : ℝ) ≤ (n : ℝ) := by exact_mod_cast hn
    linarith
  have : 0 ≤ (b - a) * (i : ℝ) / ((n : ℝ) - 1) :=
    div_nonneg (mul_nonneg (by linarith) (Nat.cast_nonneg i)) hden
  linarith

/-! ## Piecewise-linear interpolation (`np.interp`, used by the Bellman
operator to evaluate the value-function approximation) -/

/-- Piecewise-linear interpolation through a list of `(x, y)` points
sorted by `x`, with constant extrapolation outside the covered range
(the semantics of `np.interp x grid w` applied to `grid.zip w`). -/
def interpPts : List (ℝ × ℝ) → ℝ → ℝ
  | [], _ => 0
  | [p], _ => p.2
  | p :: q :: rest, x =>
      if x ≤ p.1 then p.2
      else if x ≤ q.1 then p.2 + (q.2 - p.2) * ((x - p.1) / (q.1 - p.1))
      else interpPts (q :: rest) x

/-- An affine combination `a + (b - a) * t` with `t ∈ [0, 1]` stays within
any bound that covers both endpoints. -/
theorem abs_affine_le {a b B t : ℝ} (ht0 : 0 ≤ t) (ht1 : t ≤ 1)
    (ha : |a| ≤ B) (hb : |b| ≤ B) : |a + (b - a) * t| ≤ B := by
  have h : a + (b - a) * t = (1 - t) * a + t * b := by ring
  rw [h]
  calc |(1 - t) * a + t * b| ≤ |(1 - t) * a| + |t * b| := abs_add _ _
    _ = (1 - t) * |a| + t * |b| := by
        rw [abs_mul, abs_mul, abs_of_nonneg (by linarith : (0:ℝ) ≤ 1 - t),
          abs_of_nonneg ht0]
    _ ≤ (1 - t) * B + t * B :=
        add_le_add (mul_le_mul_of_nonneg_left ha (by linarith))
          (mul_le_mul_of_nonneg_left hb ht0)
    _ = B := by ring

theorem interpPts_abs_le {B : ℝ} (hB : 0 ≤ B) :
    ∀ (pts : List (ℝ × ℝ)) (x : ℝ), (∀ p ∈ pts, |p.2| ≤ B) →
    |interpPts pts x| ≤ B := by
  intro pts
  induction pts with
  | nil => intro x _; simpa [interpPts] using hB
  | cons p tail ih =>
    intro x h
    cases tail with
    | nil => simpa [interpPts] using h p (List.mem_cons_self _ _)
    | cons q rest =>
      simp only [interpPts]
      split_ifs with h1 h2
      · exact h p (List.mem_cons_self _ _)
      · have hlt : p.1 < x := lt_of_not_le h1
        have hpq : 0 < q.1 - p.1 := by
          have : p.1 < q.1 := lt_of_lt_of_le hlt h2
          linarith
        have ht0 : 0 ≤ (x - p.1) / (q.1 - p.1) :=
          div_nonneg (by linarith) (le_of_lt hpq)
        have ht1 : (x - p.1) / (q.1 - p.1) ≤ 1 :=
          (div_le_one hpq).mpr (by linarith)
        exact abs_affine_le ht0 ht1 (h p (List.mem_cons_self _ _))
          (h q (List.mem_cons_of_mem _ (List.mem_cons_self _ _)))
      · exact ih x (fun r hr => h r (List.mem_cons_of_mem _ hr))

theorem interpPts_close {δ : ℝ} (hδ : 0 ≤ δ) :
    ∀ (g v w : List ℝ) (x : ℝ), List.Forall₂ (fun a b => |a - b| ≤ δ) v w →
    |interpPts (g.zip v) x - interpPts (g.zip w) x| ≤ δ := by
  intro g
  induction g with
  | nil => intro v w x _; simpa [interpPts] using hδ
  | cons g0 gtail ih =>
    intro v w x hvw
    cases hvw with
    | nil => simpa [interpPts] using hδ
    | @cons a b v' w' hab htail =>
      cases gtail with
      | nil => simpa [interpPts] using hab
      | cons g1 grest =>
        cases htail with
        | nil => simpa [interpPts] using hab
        | @cons a' b' v'' w'' hab' htail' =>
          simp only [List.zip_cons_cons, interpPts]
          split_ifs with h1 h2
          · exact hab
          · have heq : g0 < x := lt_of_not_le h1
            have hpq : 0 < g1 - g0 := by
              have : g0 < g1 := lt_of_lt_of_le heq h2
              linarith
            have ht0 : 0 ≤ (x - g0) / (g1 - g0) :=
              div_nonneg (by linarith) (le_of_lt hpq)
            have ht1 : (x - g0) / (g1 - g0) ≤ 1 :=
              (div_le_one hpq).mpr (by linarith)
            have hdiff :
                a + (a' - a) * ((x - g0) / (g1 - g0))
                  - (b + (b' - b) * ((x - g0) / (g1 - g0)))
                = (a - b) + ((a' - b') - (a - b)) * ((x - g0) / (g1 - g0)) := by
              ring
            rw [hdiff]
            exact abs_affine_le ht0 ht1 hab hab'
          · exact ih (a' :: v'') (b' :: w'') x (List.Forall₂.cons hab' htail')

/-- Means of pointwise-close samples are close. -/
theorem listMean_map_close {δ : ℝ} (hδ : 0 ≤ δ) (s : List ℝ) (F G : ℝ → ℝ)
    (h : ∀ z ∈ s, |F z - G z| ≤ δ) :
    |listMean (s.map F) - listMean (s.map G)| ≤ δ := by
  have hsum : |(s.map F).sum - (s.map G).sum| ≤ s.length * δ := by
    clear hδ
    induction s with
    | nil => simp
    | cons a t ih =>
      have ha : |F a - G a| ≤ δ := h a (List.mem_cons_self a t)
      have ht := ih (fun z hz => h z (List.mem_cons_of_mem a hz))
      calc |((a :: t).map F).sum - ((a :: t).map G).sum|
          = |(F a - G a) + ((t.map F).sum - (t.map G).sum)| := by simp; ring_nf
        _ ≤ |F a - G a| + |(t.map F).sum - (t.map G).sum| := abs_add _ _
        _ ≤ δ + t.length * δ := add_le_add ha ht
        _ = (a :: t).length * δ := by simp; ring
  rcases s.eq_nil_or_concat with rfl | _
  · simpa [listMean] using hδ
  · have hlen : (0 : ℝ) < s.length := by
      rcases s with _ | ⟨a, t⟩
      · simp_all
      · have : (0 : ℕ) < (a :: t).length := by simp
        exact_mod_cast this
    have hmap : ∀ H : ℝ → ℝ, (s.map H).length = s.length := fun H => by simp
    have : listMean (s.map F) - listMean (s.map G)
        = ((s.map F).sum - (s.map G).sum) / s.length := by
      rw [listMean, listMean, hmap, hmap, div_sub_div_same]
    rw [this, abs_div, abs_of_pos hlen, div_le_iff₀ hlen]
    calc |(s.map F).sum - (s.map G).sum| ≤ s.length * δ := hsum
      _ = δ * s.length := by ring

/-- Suprema of pointwise-close families over the same index set are close,
robustly across the junk values of `Real.sSup` (empty or unbounded sets). -/
theorem sSup_image_le_of_close {I : Set ℝ} {F G : ℝ → ℝ} {δ : ℝ} (hδ : 0 ≤ δ)
    (h : ∀ c ∈ I, |F c - G c| ≤ δ) : sSup (F '' I) ≤ sSup (G '' I) + δ := by
  rcases I.eq_empty_or_nonempty with rfl | hne
  · simpa [Real.sSup_empty] using hδ
  · by_cases hbdd : BddAbove (G '' I)
    · refine csSup_le (hne.image F) ?_
      rintro y ⟨c, hc, rfl⟩
      have hG : G c ≤ sSup (G '' I) := le_csSup hbdd ⟨c, hc, rfl⟩
      have hFG : F c - G c ≤ δ := le_of_abs_le (h c hc)
      linarith
    · have hFbdd : ¬ BddAbove (F '' I) := by
        rintro ⟨M, hM⟩
        apply hbdd
        refine ⟨M + δ, ?_⟩
        rintro y ⟨c, hc, rfl⟩
        have hFc : F c ≤ M := hM ⟨c, hc, rfl⟩
        have h2 : G c - F c ≤ δ := le_of_abs_le (abs_sub_comm (F c) (G c) ▸ h c hc)
        linarith
      rw [Real.sSup_of_not_bddAbove hFbdd, Real.sSup_of_not_bddAbove hbdd]
      linarith

/-- Two-sided version: the suprema of pointwise-close families differ by
at most the pointwise bound. -/
theorem abs_sSup_image_sub_le {I : Set ℝ} {F G : ℝ → ℝ} {δ : ℝ} (hδ : 0 ≤ δ)
    (h : ∀ c ∈ I, |F c - G c| ≤ δ) :
    |sSup (F '' I) - sSup (G '' I)| ≤ δ := by
  rw [abs_sub_le_iff]
  constructor
  · have := sSup_image_le_of_close hδ h
    linarith
  · have := sSup_image_le_of_close hδ
      (fun c hc => abs_sub_comm (F c) (G c) ▸ h c hc)
    linarith

/-! ## The Bellman operator

Modelled from the spec (§4.2): `optgrowth.bellman_operator` is imported
by the source file but `optgrowth.py` is not under `src/`.  Following the
spec's words: at each grid point `k` the feasible consumption `c` ranges
over `(0, f k]`; the objective is `u c + beta * E[w(y * shock)]` with
`y = f k - c`, the expectation approximated by the sample mean over the
shock draws, and `w` evaluated by linear interpolation over the grid with
constant extrapolation; the entry of the updated value array is the
objective value at the maximizing choice, modelled as the exact least
upper bound of the objective over the feasible range (so the boundary
value `u 0 = log 0 = -∞` is a limit the maximizer avoids, exactly the
spec's "treat as the domain minimum, never propagate NaN"). -/

/-- Modelled from the spec: the per-grid-point objective
`u c + beta * mean (w ((f k - c) * z) for z in shocks)`. -/
def objective (grid w : List ℝ) (beta : ℝ) (u f : ℝ → ℝ) (shocks : List ℝ)
    (k c : ℝ) : ℝ :=
  u c + beta * listMean (shocks.map (fun z => interpPts (grid.zip w) ((f k - c) * z)))

/-- The set of objective values over the feasible choice range `(0, f k]`. -/
def objSet (grid w : List ℝ) (beta : ℝ) (u f : ℝ → ℝ) (shocks : List ℝ)
    (k : ℝ) : Set ℝ :=
  (fun c => objective grid w beta u f shocks k c) '' Set.Ioc 0 (f k)

/-- Modelled from the spec: the value component of one Bellman-operator
application — entry `i` is the maximized objective at grid point `i`. -/
def bellman_operator (w grid : List ℝ) (beta : ℝ) (u f : ℝ → ℝ)
    (shocks : List ℝ) : List ℝ :=
  grid.map (fun k => sSup (objSet grid w beta u f shocks k))

/-- A maximizing choice of `F` over `S` when one exists (junk value `0`
otherwise); the abstract content of the bounded scalar maximizer's argmax. -/
def argmaxChoice (F : ℝ → ℝ) (S : Set ℝ) : ℝ :=
  letI := Classical.propDecidable (∃ c, c ∈ S ∧ ∀ d ∈ S, F d ≤ F c)
  if h : ∃ c, c ∈ S ∧ ∀ d ∈ S, F d ≤ F c then h.choose else 0

/-- Modelled from the spec: the policy component of one Bellman-operator
application — the maximizing choice at each grid point. -/
def bellman_policy (w grid : List ℝ) (beta : ℝ) (u f : ℝ → ℝ)
    (shocks : List ℝ) : List ℝ :=
  grid.map (fun k =>
    argmaxChoice (objective grid w beta u f shocks k) (Set.Ioc 0 (f k)))

/-- Modelled from the spec: the full Bellman operator with its
`compute_policy` flag — the updated value array, paired with the policy
array when and only when the flag is set. -/
def bellman_operator_full (w grid : List ℝ) (beta : ℝ) (u f : ℝ → ℝ)
    (shocks : List ℝ) (computePolicy : Bool) : List ℝ × Option (List ℝ) :=
  (bellman_operator w grid beta u f shocks,
   if computePolicy then some (bellman_policy w grid beta u f shocks) else none)

/-! ## The fixed-point solver -/

/-- Modelled from the spec (§4.3): `quantecon.compute_fixed_point` is
imported by the source file but is not under `src/`.  It repeatedly
applies the operator `T` to the current array, stops as soon as the
sup-norm of the difference between successive iterates falls below
`errorTol` (Converged) or the iteration budget is exhausted
(MaxIterExceeded, not an error), and returns the last applied iterate.
The verbosity flag and reporting interval are purely observational and
are not part of the embedding. -/
def compute_fixed_point (T : List ℝ → List ℝ) : List ℝ → ℝ → ℕ → List ℝ
  | v, _, 0 => v
  | v, errorTol, n + 1 =>
      if supDist (T v) v < errorTol then T v
      else compute_fixed_point T (T v) errorTol n

/-! ## The memoized solve (`src/optgrowth_2/log_linear_growth_model.py`) -/

/-- The initial guess built by `compute_value_function_cached`
(line 24 of the source): `initial_w = 5 * np.log(grid) - 25`. -/
def initial_w (grid : List ℝ) : List ℝ :=
  grid.map (fun k => 5 * Real.log k - 25)

/-- The body of `compute_value_function_cached` (source lines 17-38,
stripped of the `@memory.cache` decorator, which is modelled separately
by `memoCall`): iterate the Bellman operator, with `u = np.log`,
`f = fun k => k ** alpha`, `compute_policy=False`, from `initial_w`,
with `error_tol=1e-4` and `max_iter=100`.  The preallocated `Tw` buffer
and the verbosity arguments have no observable effect and are omitted. -/
def compute_value_function_cached (grid : List ℝ) (beta alpha : ℝ)
    (shocks : List ℝ) : List ℝ :=
  compute_fixed_point
    (fun w => (bellman_operator_full w grid beta Real.log
      (fun k => k ^ alpha) shocks false).1)
    (initial_w grid) (1e-4) 100

/-- Lookup in an association-list store. -/
def cacheLookup {K V : Type} [DecidableEq K] :
    List (K × V) → K → Option V
  | [], _ => none
  | (k', v) :: rest, k => if k' = k then some v else cacheLookup rest k

/-- Modelled from the spec (§4.4): the persistent get-or-compute-and-store
semantics of the `joblib.Memory` cache decorating
`compute_value_function_cached` (an external library, not under `src/`).
Returns the result, the updated store, and whether the underlying
computation was performed on this call. -/
def memoCall {K V : Type} [DecidableEq K] (f : K → V)
    (store : List (K × V)) (k : K) : V × List (K × V) × Bool :=
  match cacheLookup store k with
  | some v => (v, store, false)
  | none => (f k, (k, f k) :: store, true)

/-! ## The model facade (`LogLinearGrowthModel`) -/

/-- The state of a `LogLinearGrowthModel` instance: the six configuration
attributes together with the grid and shock sample set in `__init__`. -/
structure LogLinearGrowthModel where
  alpha : ℝ
  beta : ℝ
  mu : ℝ
  sigma : ℝ
  grid_max : ℝ
  grid_size : ℕ
  grid : List ℝ
  shocks : List ℝ

/-- `LogLinearGrowthModel.__init__` (source lines 47-57): stores the
parameters, builds `grid = np.linspace(1e-6, grid_max, grid_size)` and
`shocks = np.exp(mu + sigma * np.random.randn(250))`.  The standard-normal
draws produced by `np.random.randn(250)` enter as the explicit argument
`zs`. -/
def mkLogLinearGrowthModel (alpha beta mu sigma grid_max : ℝ)
    (grid_size : ℕ) (zs : List ℝ) : LogLinearGrowthModel :=
  { alpha := alpha, beta := beta, mu := mu, sigma := sigma,
    grid_max := grid_max, grid_size := grid_size,
    grid := linspace (1e-6) grid_max grid_size,
    shocks := zs.map (fun z => Real.exp (mu + sigma * z)) }

/-- `LogLinearGrowthModel.compute_value_function` (source lines 59-73):
delegates to the memoized solve with the instance's own
`(grid, beta, alpha, shocks)`; the optional plot is a rendering side
effect outside the numerical core and is not part of the embedding. -/
def LogLinearGrowthModel.compute_value_function (m : LogLinearGrowthModel) :
    List ℝ :=
  compute_value_function_cached m.grid m.beta m.alpha m.shocks

/-- `LogLinearGrowthModel.compute_greedy` (source lines 75-100): if no
value array is supplied, computes one via `compute_value_function`; then
performs one Bellman-operator application with `compute_policy=True` and
returns the policy component (the plot again omitted). -/
def LogLinearGrowthModel.compute_greedy (m : LogLinearGrowthModel)
    (w? : Option (List ℝ)) : List ℝ :=
  ((bellman_operator_full (w?.getD m.compute_value_function) m.grid m.beta
    Real.log (fun k => k ^ m.alpha) m.shocks true).2).getD []

/-- State-passing form of the value-function query: the Python method
reads `self` and performs no attribute assignment (source lines 59-73),
so the post-state is the pre-state. -/
def LogLinearGrowthModel.compute_value_function_st
    (m : LogLinearGrowthModel) : List ℝ × LogLinearGrowthModel :=
  (m.compute_value_function, m)

/-- State-passing form of the greedy-policy query: the Python method
reads `self` and performs no attribute assignment (source lines 75-100),
so the post-state is the pre-state. -/
def LogLinearGrowthModel.compute_greedy_st (m : LogLinearGrowthModel)
    (w? : Option (List ℝ)) : List ℝ × LogLinearGrowthModel :=
  (m.compute_greedy w?, m)

/-- Finiteness of a numpy `log` evaluation: `np.log x` is a finite real
iff `x > 0` (`np.log 0 = -inf`, `np.log` of a negative is `nan`). -/
def npLogFin (x : ℝ) : Option ℝ :=
  if 0 < x then some (Real.log x) else none

/-! ## Lemmas about the Bellman operator -/

theorem bellman_operator_length (w grid : List ℝ) (beta : ℝ) (u f : ℝ → ℝ)
    (shocks : List ℝ) :
    (bellman_operator w grid beta u f shocks).length = grid.length := by
  simp [bellman_operator]

theorem bellman_policy_length (w grid : List ℝ) (beta : ℝ) (u f : ℝ → ℝ)
    (shocks : List ℝ) :
    (bellman_policy w grid beta u f shocks).length = grid.length := by
  simp [bellman_policy]

/-- The continuation term of the objective is bounded in absolute value by
the bound on the current value array. -/
theorem objective_continuation_abs_le (grid w : List ℝ) (shocks : List ℝ)
    (y : ℝ) :
    |listMean (shocks.map (fun z => interpPts (grid.zip w) (y * z)))|
      ≤ listBound w := by
  apply listMean_abs_le (listBound_nonneg w)
  intro x hx
  rcases List.mem_map.mp hx with ⟨z, _, rfl⟩
  apply interpPts_abs_le (listBound_nonneg w)
  intro p hp
  exact abs_le_listBound (List.of_mem_zip hp).2

/-- At a grid point `k > 0` the objective set of the concrete model
(log utility, Cobb-Douglas production) is nonempty and bounded above, so
its supremum is a genuine least upper bound: the maximized value is a
finite real even though `log c → -∞` at the boundary `c = 0`. -/
theorem objSet_isLUB (grid w : List ℝ) (beta : ℝ) (shocks : List ℝ)
    (alpha : ℝ) {k : ℝ} (hk : 0 < k) :
    IsLUB (objSet grid w beta Real.log (fun x => x ^ alpha) shocks k)
      (sSup (objSet grid w beta Real.log (fun x => x ^ alpha) shocks k)) := by
  have hfk : (0 : ℝ) < k ^ alpha := Real.rpow_pos_of_pos hk alpha
  apply isLUB_csSup
  · exact ⟨_, ⟨k ^ alpha, ⟨hfk, le_refl _⟩, rfl⟩⟩
  · refine ⟨Real.log (k ^ alpha) + |beta| * listBound w, ?_⟩
    rintro y ⟨c, ⟨hc0, hc1⟩, rfl⟩
    apply add_le_add
    · exact Real.log_le_log hc0 hc1
    · calc beta * listMean (shocks.map
            (fun z => interpPts (grid.zip w) ((k ^ alpha - c) * z)))
          ≤ |beta * listMean (shocks.map
            (fun z => interpPts (grid.zip w) ((k ^ alpha - c) * z)))| :=
            le_abs_self _
        _ = |beta| * |listMean (shocks.map
            (fun z => interpPts (grid.zip w) ((k ^ alpha - c) * z)))| :=
            abs_mul _ _
        _ ≤ |beta| * listBound w :=
            mul_le_mul_of_nonneg_left
              (objective_continuation_abs_le grid w shocks _) (abs_nonneg beta)

/-- The sup-norm distance of two arrays produced by mapping pointwise-close
functions over a common grid is within the pointwise bound. -/
theorem supDist_map_le {grid : List ℝ} {F G : ℝ → ℝ} {B : ℝ} (hB : 0 ≤ B)
    (h : ∀ k ∈ grid, |F k - G k| ≤ B) :
    supDist (grid.map F) (grid.map G) ≤ B := by
  rw [supDist, List.zip_map']
  apply listMax_le hB
  intro x hx
  rcases List.mem_map.mp hx with ⟨p, hp, rfl⟩
  rcases List.mem_map.mp hp with ⟨k, hk, rfl⟩
  exact h k hk

/-- One Bellman-operator application is a `beta`-contraction in the
sup-norm, for any utility and production functions and any shock sample
(the utility term cancels; interpolation and averaging are nonexpansive;
exact maximization is nonexpansive). -/
theorem supDist_bellman_le (v w grid : List ℝ) (beta : ℝ) (u f : ℝ → ℝ)
    (shocks : List ℝ) (hβ : 0 ≤ beta) (hlen : v.length = w.length) :
    supDist (bellman_operator v grid beta u f shocks)
      (bellman_operator w grid beta u f shocks) ≤ beta * supDist v w := by
  set δ := supDist v w with hδdef
  have hδ0 : 0 ≤ δ := supDist_nonneg v w
  have hclose : List.Forall₂ (fun a b => |a - b| ≤ δ) v w := by
    rw [List.forall₂_iff_zip]
    exact ⟨hlen, fun hab => abs_sub_le_supDist hab⟩
  rw [bellman_operator, bellman_operator]
  apply supDist_map_le (mul_nonneg hβ hδ0)
  intro k _
  rw [objSet, objSet]
  apply abs_sSup_image_sub_le (mul_nonneg hβ hδ0)
  intro c _
  have hmean : |listMean (shocks.map
        (fun z => interpPts (grid.zip v) ((f k - c) * z)))
      - listMean (shocks.map
        (fun z => interpPts (grid.zip w) ((f k - c) * z)))| ≤ δ := by
    apply listMean_map_close hδ0
    intro z _
    exact interpPts_close hδ0 grid v w ((f k - c) * z) hclose
  have : objective grid v beta u f shocks k c
      - objective grid w beta u f shocks k c
      = beta * (listMean (shocks.map
          (fun z => interpPts (grid.zip v) ((f k - c) * z)))
        - listMean (shocks.map
          (fun z => interpPts (grid.zip w) ((f k - c) * z)))) := by
    rw [objective, objective]
    ring
  rw [this, abs_mul, abs_of_nonneg hβ]
  exact mul_le_mul_of_nonneg_left hmean hβ

/-! ## Lemmas about the fixed-point solver -/

/-- A positive iteration budget means the solver's result is the image of
at least one operator application. -/
theorem compute_fixed_point_succ_ex (T : List ℝ → List ℝ) (tol : ℝ) :
    ∀ (n : ℕ) (v : List ℝ), ∃ w, compute_fixed_point T v tol (n + 1) = T w := by
  intro n
  induction n with
  | zero =>
    intro v
    refine ⟨v, ?_⟩
    rw [compute_fixed_point]
    split_ifs
    · rfl
    · rw [compute_fixed_point]
  | succ n ih =>
    intro v
    by_cases h : supDist (T v) v < tol
    · exact ⟨v, by rw [compute_fixed_point, if_pos h]⟩
    · rcases ih (T v) with ⟨w, hw⟩
      exact ⟨w, by rw [compute_fixed_point, if_neg h]; exact hw⟩

/-- A nonnegative sequence contracting by a factor `β ≤ 1` at each step is
non-increasing. -/
theorem seq_le_pow {d : ℕ → ℝ} {β : ℝ} (hβ0 : 0 ≤ β)
    (hstep : ∀ n, d (n + 1) ≤ β * d n) : ∀ n, d n ≤ β ^ n * d 0 := by
  intro n
  induction n with
  | zero => simp
  | succ n ih =>
    calc d (n + 1) ≤ β * d n := hstep n
      _ ≤ β * (β ^ n * d 0) := mul_le_mul_of_nonneg_left ih hβ0
      _ = β ^ (n + 1) * d 0 := by ring

/-- A stepwise non-increasing sequence is non-increasing. -/
theorem seq_antitone {d : ℕ → ℝ} (hstep : ∀ n, d (n + 1) ≤ d n) :
    ∀ m n, n ≤ m → d m ≤ d n := by
  intro m
  induction m with
  | zero =>
    intro n hn
    have h0 : n = 0 := Nat.le_zero.mp hn
    simp [h0]
  | succ m ih =>
    intro n hn
    rcases Nat.lt_or_ge n (m + 1) with h | h
    · exact le_trans (hstep m) (ih n (Nat.lt_succ_iff.mp h))
    · have he : n = m + 1 := le_antisymm hn h
      simp [he]

/-! ## The claims -/

/-- C4: for every configuration with `grid_size ≥ 2` and `grid_max`
strictly greater than the small positive lower bound `1e-6`, the grid
built at model construction is a strictly increasing sequence of exactly
`grid_size` reals whose first element `1e-6` is strictly positive and
whose last element equals `grid_max`. -/
theorem C4_grid_construction (alpha beta mu sigma grid_max : ℝ)
    (grid_size : ℕ) (zs : List ℝ) (m : LogLinearGrowthModel)
    (hm : m = mkLogLinearGrowthModel alpha beta mu sigma grid_max grid_size zs)
    (hn : 2 ≤ grid_size) (hmax : 1e-6 < grid_max) :
    m.grid.length = grid_size ∧ List.Chain' (· < ·) m.grid ∧
    m.grid[0]? = some (1e-6 : ℝ) ∧ (0 : ℝ) < 1e-6 ∧
    m.grid[grid_size - 1]? = some grid_max := by
  subst hm
  have hg : (mkLogLinearGrowthModel alpha beta mu sigma grid_max grid_size
      zs).grid = linspace 1e-6 grid_max grid_size := rfl
  have hpos : 0 < grid_size := lt_of_lt_of_le (by norm_num) hn
  rw [hg]
  exact ⟨linspace_length _ _ _,
    linspace_strict_mono _ _ _ hn hmax,
    linspace_head _ _ _ hpos,
    by norm_num,
    linspace_last _ _ _ hn⟩

theorem C4_grid_construction_witness :
    (mkLogLinearGrowthModel 0.65 0.95 1 0.1 8 150 []).grid.length = 150 ∧
    List.Chain' (· < ·) (mkLogLinearGrowthModel 0.65 0.95 1 0.1 8 150 []).grid ∧
    (mkLogLinearGrowthModel 0.65 0.95 1 0.1 8 150 []).grid[0]? = some (1e-6 : ℝ) ∧
    (0 : ℝ) < 1e-6 ∧
    (mkLogLinearGrowthModel 0.65 0.95 1 0.1 8 150 []).grid[150 - 1]? = some 8 :=
  C4_grid_construction 0.65 0.95 1 0.1 8 150 [] _ rfl (by norm_num)
    (by norm_num)

/-- C5: for every `(mu, sigma)`, the shock sample built at model
construction consists of exactly 250 draws, each of the form
`exp (mu + sigma * Z)` for a standard-normal draw `Z`, and every entry is
strictly positive. -/
theorem C5_shock_sample (alpha beta mu sigma grid_max : ℝ)
    (grid_size : ℕ) (zs : List ℝ) (m : LogLinearGrowthModel)
    (hm : m = mkLogLinearGrowthModel alpha beta mu sigma grid_max grid_size zs)
    (hzs : zs.length = 250) :
    m.shocks.length = 250 ∧
    m.shocks = zs.map (fun z => Real.exp (mu + sigma * z)) ∧
    ∀ x ∈ m.shocks, 0 < x := by
  subst hm
  refine ⟨?_, rfl, ?_⟩
  · simp [mkLogLinearGrowthModel, hzs]
  · intro x hx
    have : x ∈ zs.map (fun z => Real.exp (mu + sigma * z)) := hx
    rcases List.mem_map.mp this with ⟨z, _, rfl⟩
    exact Real.exp_pos _

theorem C5_shock_sample_witness :
    (mkLogLinearGrowthModel 0.65 0.95 1 0.1 8 150
        (List.replicate 250 0)).shocks.length = 250 ∧
    (mkLogLinearGrowthModel 0.65 0.95 1 0.1 8 150
        (List.replicate 250 0)).shocks
      = (List.replicate 250 (0:ℝ)).map (fun z => Real.exp (1 + 0.1 * z)) ∧
    ∀ x ∈ (mkLogLinearGrowthModel 0.65 0.95 1 0.1 8 150
        (List.replicate 250 0)).shocks, 0 < x :=
  C5_shock_sample 0.65 0.95 1 0.1 8 150 (List.replicate 250 0) _ rfl
    (List.length_replicate 250 0)

/-- C6: on every invocation, the memoized solve's underlying computation
invokes the fixed-point solver with error tolerance `1e-4`, maximum
iteration count `100`, and iterates the Bellman operator with
`compute_policy = False`, which produces no policy array. -/
theorem C6_solver_invocation (grid : List ℝ) (beta alpha : ℝ)
    (shocks : List ℝ) :
    compute_value_function_cached grid beta alpha shocks
      = compute_fixed_point
          (fun w => bellman_operator w grid beta Real.log
            (fun k => k ^ alpha) shocks)
          (initial_w grid) (1e-4) 100 ∧
    ∀ w : List ℝ,
      (bellman_operator_full w grid beta Real.log (fun k => k ^ alpha)
        shocks false).2 = none := by
  exact ⟨rfl, fun w => by simp [bellman_operator_full]⟩

/-- C9: the value-function query and the greedy-policy query leave the
model's state unchanged — after either operation the grid, the shock
sample and the configuration parameters equal what they were before, and
the shock sample of a constructed model is exactly the one drawn at
construction (a fresh sample appears only through a new construction). -/
theorem C9_queries_preserve_state (m : LogLinearGrowthModel)
    (w? : Option (List ℝ)) (alpha beta mu sigma grid_max : ℝ)
    (grid_size : ℕ) (zs : List ℝ) :
    m.compute_value_function_st.2 = m ∧
    (m.compute_greedy_st w?).2 = m ∧
    m.compute_value_function_st.2.grid = m.grid ∧
    m.compute_value_function_st.2.shocks = m.shocks ∧
    m.compute_value_function_st.2.alpha = m.alpha ∧
    m.compute_value_function_st.2.beta = m.beta ∧
    m.compute_value_function_st.2.mu = m.mu ∧
    m.compute_value_function_st.2.sigma = m.sigma ∧
    (m.compute_greedy_st w?).2.grid = m.grid ∧
    (m.compute_greedy_st w?).2.shocks = m.shocks ∧
    (m.compute_greedy_st w?).2.alpha = m.alpha ∧
    (m.compute_greedy_st w?).2.beta = m.beta ∧
    (m.compute_greedy_st w?).2.mu = m.mu ∧
    (m.compute_greedy_st w?).2.sigma = m.sigma ∧
    (mkLogLinearGrowthModel alpha beta mu sigma grid_max grid_size
        zs).shocks = zs.map (fun z => Real.exp (mu + sigma * z)) :=
  ⟨rfl, rfl, rfl, rfl, rfl, rfl, rfl, rfl, rfl, rfl, rfl, rfl, rfl, rfl, rfl⟩

/-- C10: for every grid as built by the model (all points at least the
strictly positive `1e-6`), the initial guess handed to the fixed-point
solver by the memoized solve is the array with entry `5 * log k - 25` at
each grid point `k`, and every entry is finite — the `Option`-valued
`npLogFin` evaluation (finite iff the argument is positive) succeeds at
every grid point. -/
theorem C10_initial_guess (grid_max : ℝ) (n : ℕ) (beta alpha : ℝ)
    (shocks : List ℝ) (hn : 2 ≤ n) (hmax : 1e-6 ≤ grid_max) :
    (∀ k ∈ linspace 1e-6 grid_max n, (1e-6 : ℝ) ≤ k) ∧
    initial_w (linspace 1e-6 grid_max n)
      = (linspace 1e-6 grid_max n).map (fun k => 5 * Real.log k - 25) ∧
    compute_value_function_cached (linspace 1e-6 grid_max n) beta alpha
        shocks
      = compute_fixed_point
          (fun w => (bellman_operator_full w (linspace 1e-6 grid_max n)
            beta Real.log (fun k => k ^ alpha) shocks false).1)
          (initial_w (linspace 1e-6 grid_max n)) (1e-4) 100 ∧
    (linspace 1e-6 grid_max n).map
        (fun k => (npLogFin k).map (fun l => 5 * l - 25))
      = (initial_w (linspace 1e-6 grid_max n)).map some := by
  have hmem : ∀ k ∈ linspace 1e-6 grid_max n, (1e-6 : ℝ) ≤ k :=
    fun k hk => mem_linspace_le hn hmax hk
  refine ⟨hmem, rfl, rfl, ?_⟩
  rw [initial_w, List.map_map]
  apply List.map_congr_left
  intro k hk
  have hk0 : (0 : ℝ) < k := lt_of_lt_of_le (by norm_num) (hmem k hk)
  simp [npLogFin, hk0, Function.comp]

theorem C10_initial_guess_witness :
    (∀ k ∈ linspace 1e-6 8 150, (1e-6 : ℝ) ≤ k) ∧
    initial_w (linspace 1e-6 8 150)
      = (linspace 1e-6 8 150).map (fun k => 5 * Real.log k - 25) ∧
    compute_value_function_cached (linspace 1e-6 8 150) 0.95 0.65 []
      = compute_fixed_point
          (fun w => (bellman_operator_full w (linspace 1e-6 8 150)
            0.95 Real.log (fun k => k ^ (0.65 : ℝ)) [] false).1)
          (initial_w (linspace 1e-6 8 150)) (1e-4) 100 ∧
    (linspace 1e-6 8 150).map
        (fun k => (npLogFin k).map (fun l => 5 * l - 25))
      = (initial_w (linspace 1e-6 8 150)).map some :=
  C10_initial_guess 8 150 0.95 0.65 [] (by norm_num) (by norm_num)

/-- The memoized solve's underlying computation, keyed — as the cache
is — by the exact argument tuple `(grid, beta, alpha, shocks)`. -/
def solveKeyed (p : List ℝ × ℝ × ℝ × List ℝ) : List ℝ :=
  compute_value_function_cached p.1 p.2.1 p.2.2.1 p.2.2.2

/-- C1: invoking the memoized solve twice with the same key performs the
fixed-point computation only once — starting from a store with no entry
for the key, the first call computes (flag `true`) and stores the result
under the key, and the second call returns an equal result without
recomputation (flag `false`). -/
theorem C1_memoization_idempotence
    (store : List ((List ℝ × ℝ × ℝ × List ℝ) × List ℝ))
    (key : List ℝ × ℝ × ℝ × List ℝ)
    (h : cacheLookup store key = none) :
    (memoCall solveKeyed store key).2.2 = true ∧
    (memoCall solveKeyed store key).1 = solveKeyed key ∧
    cacheLookup (memoCall solveKeyed store key).2.1 key
      = some (memoCall solveKeyed store key).1 ∧
    (memoCall solveKeyed (memoCall solveKeyed store key).2.1 key).2.2
      = false ∧
    (memoCall solveKeyed (memoCall solveKeyed store key).2.1 key).1
      = (memoCall solveKeyed store key).1 := by
  have h1 : memoCall solveKeyed store key
      = (solveKeyed key, (key, solveKeyed key) :: store, true) := by
    rw [memoCall, h]
  have h2 : cacheLookup ((key, solveKeyed key) :: store) key
      = some (solveKeyed key) := by
    rw [cacheLookup, if_pos rfl]
  refine ⟨by rw [h1], by rw [h1], ?_, ?_, ?_⟩
  · rw [h1]
    exact h2
  · rw [h1]
    simp only
    rw [memoCall, h2]
  · rw [h1]
    simp only
    rw [memoCall, h2]

theorem C1_memoization_idempotence_witness :
    (memoCall solveKeyed [] ([], 0, 0, [])).2.2 = true ∧
    (memoCall solveKeyed [] ([], 0, 0, [])).1 = solveKeyed ([], 0, 0, []) ∧
    cacheLookup (memoCall solveKeyed [] ([], 0, 0, [])).2.1 ([], 0, 0, [])
      = some (memoCall solveKeyed [] ([], 0, 0, [])).1 ∧
    (memoCall solveKeyed (memoCall solveKeyed [] ([], 0, 0, [])).2.1
      ([], 0, 0, [])).2.2 = false ∧
    (memoCall solveKeyed (memoCall solveKeyed [] ([], 0, 0, [])).2.1
      ([], 0, 0, [])).1 = (memoCall solveKeyed [] ([], 0, 0, [])).1 :=
  C1_memoization_idempotence [] ([], 0, 0, []) rfl

/-- C8: the greedy-policy query with a supplied value array `w` performs
one Bellman-operator application with `compute_policy = True` on `w` and
returns the resulting policy array, of length `grid_size`; with no array
supplied it first computes a value function via the memoized solve and
performs the single Bellman application on that. -/
theorem C8_greedy_policy (alpha beta mu sigma grid_max : ℝ)
    (grid_size : ℕ) (zs w : List ℝ) (m : LogLinearGrowthModel)
    (hm : m = mkLogLinearGrowthModel alpha beta mu sigma grid_max grid_size
      zs) :
    (bellman_operator_full w m.grid m.beta Real.log (fun k => k ^ m.alpha)
        m.shocks true).2
      = some (bellman_policy w m.grid m.beta Real.log
          (fun k => k ^ m.alpha) m.shocks) ∧
    m.compute_greedy (some w)
      = bellman_policy w m.grid m.beta Real.log (fun k => k ^ m.alpha)
          m.shocks ∧
    (m.compute_greedy (some w)).length = grid_size ∧
    m.compute_greedy none
      = bellman_policy m.compute_value_function m.grid m.beta Real.log
          (fun k => k ^ m.alpha) m.shocks ∧
    (m.compute_greedy none).length = grid_size := by
  have hfull : ∀ v : List ℝ,
      (bellman_operator_full v m.grid m.beta Real.log
        (fun k => k ^ m.alpha) m.shocks true).2
      = some (bellman_policy v m.grid m.beta Real.log
          (fun k => k ^ m.alpha) m.shocks) := by
    intro v
    simp [bellman_operator_full]
  have hgreedy : ∀ w? : Option (List ℝ), m.compute_greedy w?
      = bellman_policy (w?.getD m.compute_value_function) m.grid m.beta
          Real.log (fun k => k ^ m.alpha) m.shocks := by
    intro w?
    rw [LogLinearGrowthModel.compute_greedy, hfull]
    rfl
  have hlen : m.grid.length = grid_size := by
    rw [hm]
    exact linspace_length _ _ _
  refine ⟨hfull w, ?_, ?_, ?_, ?_⟩
  · rw [hgreedy (some w)]
    rfl
  · rw [hgreedy (some w)]
    show (bellman_policy w m.grid m.beta Real.log (fun k => k ^ m.alpha)
      m.shocks).length = grid_size
    rw [bellman_policy_length, hlen]
  · rw [hgreedy none]
    rfl
  · rw [hgreedy none]
    show (bellman_policy (Option.getD none m.compute_value_function) m.grid
      m.beta Real.log (fun k => k ^ m.alpha) m.shocks).length = grid_size
    rw [bellman_policy_length, hlen]

theorem C8_greedy_policy_witness :
    (bellman_operator_full [0, 0]
        (mkLogLinearGrowthModel 0.65 0.95 1 0.1 8 2 []).grid
        (mkLogLinearGrowthModel 0.65 0.95 1 0.1 8 2 []).beta Real.log
        (fun k => k ^ (mkLogLinearGrowthModel 0.65 0.95 1 0.1 8 2 []).alpha)
        (mkLogLinearGrowthModel 0.65 0.95 1 0.1 8 2 []).shocks true).2
      = some (bellman_policy [0, 0]
          (mkLogLinearGrowthModel 0.65 0.95 1 0.1 8 2 []).grid
          (mkLogLinearGrowthModel 0.65 0.95 1 0.1 8 2 []).beta Real.log
          (fun k =>
            k ^ (mkLogLinearGrowthModel 0.65 0.95 1 0.1 8 2 []).alpha)
          (mkLogLinearGrowthModel 0.65 0.95 1 0.1 8 2 []).shocks) ∧
    (mkLogLinearGrowthModel 0.65 0.95 1 0.1 8 2 []).compute_greedy
        (some [0, 0])
      = bellman_policy [0, 0]
          (mkLogLinearGrowthModel 0.65 0.95 1 0.1 8 2 []).grid
          (mkLogLinearGrowthModel 0.65 0.95 1 0.1 8 2 []).beta Real.log
          (fun k =>
            k ^ (mkLogLinearGrowthModel 0.65 0.95 1 0.1 8 2 []).alpha)
          (mkLogLinearGrowthModel 0.65 0.95 1 0.1 8 2 []).shocks ∧
    ((mkLogLinearGrowthModel 0.65 0.95 1 0.1 8 2 []).compute_greedy
        (some [0, 0])).length = 2 ∧
    (mkLogLinearGrowthModel 0.65 0.95 1 0.1 8 2 []).compute_greedy none
      = bellman_policy
          (mkLogLinearGrowthModel 0.65 0.95 1 0.1 8 2
            []).compute_value_function
          (mkLogLinearGrowthModel 0.65 0.95 1 0.1 8 2 []).grid
          (mkLogLinearGrowthModel 0.65 0.95 1 0.1 8 2 []).beta Real.log
          (fun k =>
            k ^ (mkLogLinearGrowthModel 0.65 0.95 1 0.1 8 2 []).alpha)
          (mkLogLinearGrowthModel 0.65 0.95 1 0.1 8 2 []).shocks ∧
    ((mkLogLinearGrowthModel 0.65 0.95 1 0.1 8 2 []).compute_greedy
        none).length = 2 :=
  C8_greedy_policy 0.65 0.95 1 0.1 8 2 [] [0, 0] _ rfl

/-- C2: for every valid configuration (`alpha, beta ∈ (0,1)`,
`grid_size ≥ 2`) and every value-function guess of grid length, one
Bellman-operator application returns an array of the same length as the
grid in which every entry is the least upper bound of its nonempty,
bounded-above objective set — the embedding's reading of "no NaN or
infinite entries" — including at the grid point nearest zero, where the
boundary value `log 0 = -∞` is the never-attained infimum limit of the
feasible range `(0, f k]` that the maximizer avoids. -/
theorem C2_bellman_safety (alpha beta grid_max : ℝ) (grid_size : ℕ)
    (w shocks grid : List ℝ)
    (hgrid : grid = linspace 1e-6 grid_max grid_size)
    (hα0 : 0 < alpha) (hα1 : alpha < 1) (hβ0 : 0 < beta) (hβ1 : beta < 1)
    (hn : 2 ≤ grid_size) (hmax : 1e-6 ≤ grid_max)
    (hw : w.length = grid.length) :
    (bellman_operator w grid beta Real.log (fun k => k ^ alpha)
        shocks).length = grid.length ∧
    bellman_operator w grid beta Real.log (fun k => k ^ alpha) shocks
      = grid.map (fun k =>
          sSup (objSet grid w beta Real.log (fun x => x ^ alpha) shocks
            k)) ∧
    ∀ k ∈ grid,
      IsLUB (objSet grid w beta Real.log (fun x => x ^ alpha) shocks k)
        (sSup (objSet grid w beta Real.log (fun x => x ^ alpha) shocks
          k)) := by
  refine ⟨bellman_operator_length w grid beta Real.log
    (fun k => k ^ alpha) shocks, rfl, ?_⟩
  intro k hk
  have hle : (1e-6 : ℝ) ≤ k := mem_linspace_le hn hmax (hgrid ▸ hk)
  exact objSet_isLUB grid w beta shocks alpha
    (lt_of_lt_of_le (by norm_num) hle)

theorem C2_bellman_safety_witness :
    (bellman_operator [0, 0] (linspace 1e-6 8 2) 0.95 Real.log
        (fun k => k ^ (0.65 : ℝ)) [1]).length
      = (linspace 1e-6 8 2).length ∧
    bellman_operator [0, 0] (linspace 1e-6 8 2) 0.95 Real.log
        (fun k => k ^ (0.65 : ℝ)) [1]
      = (linspace 1e-6 8 2).map (fun k =>
          sSup (objSet (linspace 1e-6 8 2) [0, 0] 0.95 Real.log
            (fun x => x ^ (0.65 : ℝ)) [1] k)) ∧
    ∀ k ∈ linspace 1e-6 8 2,
      IsLUB (objSet (linspace 1e-6 8 2) [0, 0] 0.95 Real.log
          (fun x => x ^ (0.65 : ℝ)) [1] k)
        (sSup (objSet (linspace 1e-6 8 2) [0, 0] 0.95 Real.log
          (fun x => x ^ (0.65 : ℝ)) [1] k)) :=
  C2_bellman_safety 0.65 0.95 8 2 [0, 0] [1] (linspace 1e-6 8 2) rfl
    (by norm_num) (by norm_num) (by norm_num) (by norm_num) (by norm_num)
    (by norm_num) (by simp [linspace_length])

/-- C7: for every model constructed with the default configuration, the
no-argument value-function query returns an array of length
`grid_size = 150` whose every entry is (the embedding's reading of
finite:) the least upper bound of a nonempty, bounded-above objective
set of one further Bellman application. -/
theorem C7_default_value_function (zs : List ℝ) (m : LogLinearGrowthModel)
    (hm : m = mkLogLinearGrowthModel 0.65 0.95 1 0.1 8 150 zs)
    (hzs : zs.length = 250) :
    m.compute_value_function.length = 150 ∧
    ∃ w : List ℝ,
      m.compute_value_function
        = bellman_operator w m.grid m.beta Real.log
            (fun k => k ^ m.alpha) m.shocks ∧
      ∀ k ∈ m.grid,
        IsLUB (objSet m.grid w m.beta Real.log (fun x => x ^ m.alpha)
            m.shocks k)
          (sSup (objSet m.grid w m.beta Real.log (fun x => x ^ m.alpha)
            m.shocks k)) := by
  have hT : m.compute_value_function
      = compute_fixed_point
          (fun v => bellman_operator v m.grid m.beta Real.log
            (fun k => k ^ m.alpha) m.shocks)
          (initial_w m.grid) (1e-4) 100 := rfl
  obtain ⟨w, hw⟩ := compute_fixed_point_succ_ex
    (fun v => bellman_operator v m.grid m.beta Real.log
      (fun k => k ^ m.alpha) m.shocks) (1e-4) 99 (initial_w m.grid)
  have hres : m.compute_value_function
      = bellman_operator w m.grid m.beta Real.log (fun k => k ^ m.alpha)
          m.shocks := by
    rw [hT]
    exact hw
  have hglen : m.grid.length = 150 := by
    rw [hm]
    exact linspace_length _ _ _
  refine ⟨?_, w, hres, ?_⟩
  · rw [hres, bellman_operator_length, hglen]
  · intro k hk
    have hk' : k ∈ linspace 1e-6 8 150 := by
      rw [hm] at hk
      exact hk
    have hle : (1e-6 : ℝ) ≤ k :=
      mem_linspace_le (by norm_num) (by norm_num) hk'
    exact objSet_isLUB m.grid w m.beta m.shocks m.alpha
      (lt_of_lt_of_le (by norm_num) hle)

theorem C7_default_value_function_witness :
    (mkLogLinearGrowthModel 0.65 0.95 1 0.1 8 150
        (List.replicate 250 0)).compute_value_function.length = 150 ∧
    ∃ w : List ℝ,
      (mkLogLinearGrowthModel 0.65 0.95 1 0.1 8 150
          (List.replicate 250 0)).compute_value_function
        = bellman_operator w
            (mkLogLinearGrowthModel 0.65 0.95 1 0.1 8 150
              (List.replicate 250 0)).grid
            (mkLogLinearGrowthModel 0.65 0.95 1 0.1 8 150
              (List.replicate 250 0)).beta Real.log
            (fun k => k ^ (mkLogLinearGrowthModel 0.65 0.95 1 0.1 8 150
              (List.replicate 250 0)).alpha)
            (mkLogLinearGrowthModel 0.65 0.95 1 0.1 8 150
              (List.replicate 250 0)).shocks ∧
      ∀ k ∈ (mkLogLinearGrowthModel 0.65 0.95 1 0.1 8 150
          (List.replicate 250 0)).grid,
        IsLUB (objSet
            (mkLogLinearGrowthModel 0.65 0.95 1 0.1 8 150
              (List.replicate 250 0)).grid w
            (mkLogLinearGrowthModel 0.65 0.95 1 0.1 8 150
              (List.replicate 250 0)).beta Real.log
            (fun x => x ^ (mkLogLinearGrowthModel 0.65 0.95 1 0.1 8 150
              (List.replicate 250 0)).alpha)
            (mkLogLinearGrowthModel 0.65 0.95 1 0.1 8 150
              (List.replicate 250 0)).shocks k)
          (sSup (objSet
            (mkLogLinearGrowthModel 0.65 0.95 1 0.1 8 150
              (List.replicate 250 0)).grid w
            (mkLogLinearGrowthModel 0.65 0.95 1 0.1 8 150
              (List.replicate 250 0)).beta Real.log
            (fun x => x ^ (mkLogLinearGrowthModel 0.65 0.95 1 0.1 8 150
              (List.replicate 250 0)).alpha)
            (mkLogLinearGrowthModel 0.65 0.95 1 0.1 8 150
              (List.replicate 250 0)).shocks k)) :=
  C7_default_value_function (List.replicate 250 0) _ rfl
    (List.length_replicate 250 0)

/-- C3: for every discount factor `beta ∈ (0,1)` and any two different
initial value-function guesses (of equal length), the sup-norm distance
between the corresponding iterates of the Bellman operator is
non-increasing across iterations, and for every `ε > 0` there is an
iteration count after which this distance is below `ε`. -/
theorem C3_contraction (alpha beta : ℝ) (grid shocks v₀ w₀ : List ℝ)
    (T : List ℝ → List ℝ)
    (hT : T = fun v => bellman_operator v grid beta Real.log
      (fun k => k ^ alpha) shocks)
    (hβ0 : 0 < beta) (hβ1 : beta < 1)
    (hlen : v₀.length = w₀.length) (hne : v₀ ≠ w₀) :
    (∀ n, supDist (T^[n + 1] v₀) (T^[n + 1] w₀)
      ≤ supDist (T^[n] v₀) (T^[n] w₀)) ∧
    ∀ ε : ℝ, 0 < ε → ∃ N, ∀ n, N ≤ n →
      supDist (T^[n] v₀) (T^[n] w₀) < ε := by
  subst hT
  have hβ0' : (0 : ℝ) ≤ beta := le_of_lt hβ0
  set T := fun v => bellman_operator v grid beta Real.log
    (fun k => k ^ alpha) shocks with hTdef
  have hTapp : ∀ v, T v = bellman_operator v grid beta Real.log
      (fun k => k ^ alpha) shocks := fun v => rfl
  have hlen_n : ∀ n, (T^[n] v₀).length = (T^[n] w₀).length := by
    intro n
    cases n with
    | zero => simpa using hlen
    | succ n =>
      rw [Function.iterate_succ_apply', Function.iterate_succ_apply',
        hTapp, hTapp, bellman_operator_length, bellman_operator_length]
  have hstep : ∀ n, supDist (T^[n + 1] v₀) (T^[n + 1] w₀)
      ≤ beta * supDist (T^[n] v₀) (T^[n] w₀) := by
    intro n
    rw [Function.iterate_succ_apply', Function.iterate_succ_apply',
      hTapp, hTapp]
    exact supDist_bellman_le (T^[n] v₀) (T^[n] w₀) grid beta Real.log
      (fun k => k ^ alpha) shocks hβ0' (hlen_n n)
  have hmono : ∀ n, supDist (T^[n + 1] v₀) (T^[n + 1] w₀)
      ≤ supDist (T^[n] v₀) (T^[n] w₀) := by
    intro n
    refine le_trans (hstep n) ?_
    exact mul_le_of_le_one_left (supDist_nonneg _ _) (le_of_lt hβ1)
  refine ⟨hmono, ?_⟩
  intro ε hε
  have hgeom : ∀ n, supDist (T^[n] v₀) (T^[n] w₀)
      ≤ beta ^ n * supDist v₀ w₀ := by
    have := seq_le_pow hβ0'
      (d := fun n => supDist (T^[n] v₀) (T^[n] w₀)) hstep
    simpa using this
  rcases eq_or_lt_of_le (supDist_nonneg v₀ w₀) with h0 | h0
  · refine ⟨0, fun n _ => ?_⟩
    have h1 := hgeom n
    rw [← h0, mul_zero] at h1
    exact lt_of_le_of_lt h1 hε
  · obtain ⟨N, hN⟩ := exists_pow_lt_of_lt_one
      (div_pos hε h0) hβ1
    refine ⟨N, fun n hn => ?_⟩
    have h1 : supDist (T^[n] v₀) (T^[n] w₀)
        ≤ supDist (T^[N] v₀) (T^[N] w₀) :=
      seq_antitone (d := fun n => supDist (T^[n] v₀) (T^[n] w₀)) hmono n
        N hn
    have h2 : beta ^ N * supDist v₀ w₀ < ε := (lt_div_iff₀ h0).mp hN
    exact lt_of_le_of_lt (le_trans h1 (hgeom N)) h2

theorem C3_contraction_witness :
    (∀ n, supDist
        ((fun v => bellman_operator v (linspace 1e-6 8 2) 0.5 Real.log
          (fun k => k ^ (0.65 : ℝ)) [1])^[n + 1] [0, 0])
        ((fun v => bellman_operator v (linspace 1e-6 8 2) 0.5 Real.log
          (fun k => k ^ (0.65 : ℝ)) [1])^[n + 1] [1, 1])
      ≤ supDist
        ((fun v => bellman_operator v (linspace 1e-6 8 2) 0.5 Real.log
          (fun k => k ^ (0.65 : ℝ)) [1])^[n] [0, 0])
        ((fun v => bellman_operator v (linspace 1e-6 8 2) 0.5 Real.log
          (fun k => k ^ (0.65 : ℝ)) [1])^[n] [1, 1])) ∧
    ∀ ε : ℝ, 0 < ε → ∃ N, ∀ n, N ≤ n →
      supDist
        ((fun v => bellman_operator v (linspace 1e-6 8 2) 0.5 Real.log
          (fun k => k ^ (0.65 : ℝ)) [1])^[n] [0, 0])
        ((fun v => bellman_operator v (linspace 1e-6 8 2) 0.5 Real.log
          (fun k => k ^ (0.65 : ℝ)) [1])^[n] [1, 1]) < ε :=
  C3_contraction 0.65 0.5 (linspace 1e-6 8 2) [1] [0, 0] [1, 1] _ rfl
    (by norm_num) (by norm_num) rfl (by simp)
